import Mathlib

/-!
Shallow embedding of the Merkle sum tree implementation
(`src/Task 1/Merkle_Sum_Tree.rs`) and proofs of the specified properties.

Modelling conventions:
* `u64` values are natural numbers; every `u64` addition in the source is
  embedded as `(a + b) % 2 ^ 64` (release-mode wrapping semantics).
* `usize` quantities (heights, positions, indices) are natural numbers; the
  target is assumed 64-bit, so `usize::to_be_bytes` produces 8 bytes.
* SHA-256 (`hash_bytes`, an external library primitive) is embedded as an
  abstract deterministic byte-level function `hash_bytes : List Nat → List Nat`
  over which every definition and theorem is parameterised; theorems therefore
  hold for every choice of hash function.  A concrete executable instance
  `hfEx` is used to evaluate the development on concrete inputs.
* The two `assert!` statements in `Node::new` / `Node::new_branch` model the
  rejection of non-power-of-two leaf counts: `Node.new` returns `Option Node`,
  with `none` standing for the failed assertion (`InvalidLeafCount`).
  `new_branch` itself is only ever called with equal-height children inside
  `new`, which is proved as part of the structural invariant below.
-/

/-- Byte strings are lists of naturals (each byte `< 256` by construction). -/
abbrev Bytes := List Nat

/-- The modulus of `u64` arithmetic. -/
def M64 : Nat := 2 ^ 64

/-- Big-endian 8-byte encoding of a `u64`/`usize` value
(`to_be_bytes` on a 64-bit target). -/
def toBE8 (n : Nat) : Bytes :=
  [n / 2 ^ 56 % 256, n / 2 ^ 48 % 256, n / 2 ^ 40 % 256, n / 2 ^ 32 % 256,
   n / 2 ^ 24 % 256, n / 2 ^ 16 % 256, n / 2 ^ 8 % 256, n % 256]

/-- `struct Commitment { sum: u64, hash: [u8; 32] }`. -/
structure Commitment where
  sum : Nat
  hash : Bytes
deriving DecidableEq

/-- `enum Node` of the source: a branch stores `height`, `sum`, the two owned
children and its `commitment` digest; a leaf stores `value` and `commitment`. -/
inductive Node where
  | branch (height : Nat) (sum : Nat) (left : Node) (right : Node)
      (commitment : Bytes)
  | leaf (value : Nat) (commitment : Bytes)
deriving DecidableEq

/-- `Node::height`: branches report their stored height, leaves report 0. -/
def Node.height : Node → Nat
  | .branch h _ _ _ _ => h
  | .leaf _ _ => 0

/-- `Node::amount` (the `SumCommitment` impl): branch sum or leaf value. -/
def Node.amount : Node → Nat
  | .branch _ s _ _ _ => s
  | .leaf v _ => v

/-- `Node::digest`: the stored commitment digest of the node. -/
def Node.digest : Node → Bytes
  | .branch _ _ _ _ c => c
  | .leaf _ c => c

/-- The byte string hashed by `Node::new_branch` (source lines 72-78):
`height.to_be_bytes ‖ sum.to_be_bytes ‖ left.digest ‖ right.digest`. -/
def branchSerialBuild (height sum : Nat) (ld rd : Bytes) : Bytes :=
  toBE8 height ++ toBE8 sum ++ ld ++ rd

/-- The byte string hashed by `Proof::verify` (source lines 154-160):
`height.to_be_bytes ‖ sum.to_be_bytes ‖ left.digest ‖ right.digest`. -/
def branchSerialVerify (height sum : Nat) (ld rd : Bytes) : Bytes :=
  toBE8 height ++ toBE8 sum ++ ld ++ rd

/-- The byte string hashed by `Node::new_leaf`: `value.to_be_bytes` alone. -/
def leafSerial (value : Nat) : Bytes :=
  toBE8 value

/-- `Node::new_branch`: height is one above the left child, sum is the `u64`
sum of the children, the digest hashes the serialized branch encoding. -/
def Node.new_branch (hash_bytes : Bytes → Bytes) (left right : Node) : Node :=
  .branch (left.height + 1) ((left.amount + right.amount) % M64) left right
    (hash_bytes (branchSerialBuild (left.height + 1)
      ((left.amount + right.amount) % M64) left.digest right.digest))

/-- `Node::new_leaf`: digest hashes the 8-byte big-endian value. -/
def Node.new_leaf (hash_bytes : Bytes → Bytes) (value : Nat) : Node :=
  .leaf value (hash_bytes (leafSerial value))

/-- `impl From<&Node> for Commitment` / `Node::commit`: the `(sum, hash)`
projection of a node. -/
def Node.commit (t : Node) : Commitment :=
  ⟨t.amount, t.digest⟩

/-- `struct Proof { node: Commitment, siblings: Vec<Commitment>, index: usize }`. -/
structure Proof where
  node : Commitment
  siblings : List Commitment
  index : Nat
deriving DecidableEq

/-- The loop of `Proof::verify`: starting from the leaf commitment, replay the
branch hashing leaf-to-root.  At each step the operand order is decided by the
low bit of `key`, the sum is the wrapping `u64` sum, the height counter is
incremented before serialising, and `key` is shifted right by one. -/
def verifyLoop (hash_bytes : Bytes → Bytes) :
    Commitment → Nat → Nat → List Commitment → Commitment
  | c, _, _, [] => c
  | c, height, key, s :: rest =>
    if key &&& 1 = 0 then
      verifyLoop hash_bytes
        ⟨(c.sum + s.sum) % M64,
         hash_bytes (branchSerialVerify (height + 1) ((c.sum + s.sum) % M64)
           c.hash s.hash)⟩
        (height + 1) (key >>> 1) rest
    else
      verifyLoop hash_bytes
        ⟨(c.sum + s.sum) % M64,
         hash_bytes (branchSerialVerify (height + 1) ((c.sum + s.sum) % M64)
           s.hash c.hash)⟩
        (height + 1) (key >>> 1) rest

/-- `Proof::verify`: replay the siblings and compare with the root commitment
(structural equality of `sum` and `hash`). -/
def Proof.verify (hash_bytes : Bytes → Bytes) (p : Proof)
    (root_commitment : Commitment) : Bool :=
  decide (verifyLoop hash_bytes p.node 0 p.index p.siblings = root_commitment)

/-- The descent loop of `Node::prove`: returns the siblings collected
root-to-leaf (in push order) together with the reached leaf's commitment.
At a branch of stored height `h` the source masks the position with
`1 << (h - 1)`: bit clear descends left recording the right child's
commitment, bit set descends right recording the left child's commitment. -/
def Node.proveAux : Node → Nat → List Commitment × Commitment
  | .leaf v c, _ => ([], Node.commit (.leaf v c))
  | .branch h _ l r _, position =>
    if position &&& (1 <<< (h - 1)) = 0 then
      (Node.commit r :: (Node.proveAux l position).1,
       (Node.proveAux l position).2)
    else
      (Node.commit l :: (Node.proveAux r position).1,
       (Node.proveAux r position).2)

/-- `Node::prove`: collect siblings root-to-leaf, then reverse so they are
stored leaf-to-root; the `index` field records the requested position. -/
def Node.prove (t : Node) (position : Nat) : Proof :=
  ⟨(t.proveAux position).2, (t.proveAux position).1.reverse, position⟩

/-- The body of the `while` loop in `Node::new`: while the stack top records
the current height, pop it and combine it (as the left child) with the current
node (as the right child), bumping the height; finally push. The list head is
the top of the `roots` vector. -/
def insertNode (hash_bytes : Bytes → Bytes) :
    List (Nat × Node) → Node → Nat → List (Nat × Node)
  | [], node, height => [(height, node)]
  | (h, sib) :: rest, node, height =>
    if h = height then
      insertNode hash_bytes rest (Node.new_branch hash_bytes sib node)
        (height + 1)
    else
      (height, node) :: (h, sib) :: rest

/-- `Node::new` (the `MerkleTree::new` impl): fold the values into the stack,
then require the stack to hold exactly one root (`assert!(roots.len() == 1)`;
its failure — the non-power-of-two leaf count — is modelled as `none`). -/
def Node.new (hash_bytes : Bytes → Bytes) (values : List Nat) : Option Node :=
  match values.foldl
      (fun st v => insertNode hash_bytes st (Node.new_leaf hash_bytes v) 0)
      [] with
  | [(_, n)] => some n
  | _ => none

/-- Structural well-formedness of a built tree (the data-model invariant):
children of a branch have equal heights, the branch height is one above them,
the branch sum is the wrapping `u64` sum of the children, and every stored
digest is the hash of the node's serialized encoding. -/
def Node.wf (hash_bytes : Bytes → Bytes) : Node → Bool
  | .leaf v c => decide (c = hash_bytes (leafSerial v))
  | .branch h s l r c =>
    Node.wf hash_bytes l && Node.wf hash_bytes r &&
      decide (l.height = r.height) && decide (h = l.height + 1) &&
      decide (s = (l.amount + r.amount) % M64) &&
      decide (c = hash_bytes (branchSerialBuild h s l.digest r.digest))

/-- The leaf values of a tree, in left-to-right order. -/
def Node.leafVals : Node → List Nat
  | .leaf v _ => [v]
  | .branch _ _ l r _ => l.leafVals ++ r.leafVals

/-- `allLeavesAt t d` holds when every leaf of `t` sits at depth exactly `d`. -/
def Node.allLeavesAt : Node → Nat → Bool
  | .leaf _ _, d => decide (d = 0)
  | .branch _ _ l r _, d =>
    match d with
    | 0 => false
    | d' + 1 => l.allLeavesAt d' && r.allLeavesAt d'

/-- Invariant carried by the `roots` stack during `Node::new`: every recorded
node is well formed and its recorded height is its actual height. -/
def stackWF (hash_bytes : Bytes → Bytes) (st : List (Nat × Node)) : Prop :=
  ∀ pr ∈ st, Node.wf hash_bytes pr.2 = true ∧ pr.2.height = pr.1

/-- The number of leaves accounted for by a `roots` stack: each entry of
recorded height `h` stands for `2 ^ h` consumed values. -/
def sumPow (st : List (Nat × Node)) : Nat :=
  (st.map (fun pr => 2 ^ pr.1)).sum

/-- The leaf values recorded in a `roots` stack, earliest first (the list head
is the stack top, which holds the most recent values). -/
def stackVals : List (Nat × Node) → List Nat
  | [] => []
  | pr :: rest => stackVals rest ++ pr.2.leafVals

/-- A concrete executable hash function used to instantiate the abstract
SHA-256 parameter on concrete inputs. -/
def hfEx : Bytes → Bytes :=
  fun bs => 0 :: bs

/-- The value sequence of the specification's concrete scenario. -/
def exValues : List Nat :=
  [1, 2, 3, 4, 5, 6, 7, 8]

/-- The tree built from the concrete scenario values under `hfEx`. -/
def exTree : Node :=
  (Node.new hfEx exValues).getD (Node.leaf 0 [])

/-! ### Bit-level helpers -/

/-- The mask test of `prove` in divisionmod form: masking with `1 << k`
vanishes exactly when bit `k` is clear. -/
lemma mst_and_pow_eq_zero_iff (p k : Nat) :
    p &&& (1 <<< k) = 0 ↔ p / 2 ^ k % 2 = 0 := by
  rw [Nat.one_shiftLeft, Nat.and_two_pow]
  have h2 : 0 < 2 ^ k := Nat.two_pow_pos k
  cases hb : p.testBit k
  · rw [Nat.testBit_to_div_mod, decide_eq_false_iff_not] at hb
    have hx := Nat.mod_two_eq_zero_or_one (p / 2 ^ k)
    simp only [Bool.toNat_false, zero_mul]
    constructor
    · intro _
      rcases hx with h0 | h1
      · exact h0
      · exact absurd h1 hb
    · intro _
      trivial
  · rw [Nat.testBit_to_div_mod, decide_eq_true_eq] at hb
    simp only [Bool.toNat_true, one_mul]
    constructor
    · intro h0
      exact absurd h0 h2.ne'
    · intro h0
      exact absurd (hb.symm.trans h0) one_ne_zero

/-- The low-bit test of `verify` in division/mod form. -/
lemma mst_shiftRight_and_one (p k : Nat) : (p >>> k) &&& 1 = p / 2 ^ k % 2 := by
  rw [Nat.and_one_is_mod, Nat.shiftRight_eq_div_pow]

/-- `testBit` phrasing of the mask test. -/
lemma mst_testBit_false_iff (p k : Nat) :
    p.testBit k = false ↔ p &&& (1 <<< k) = 0 := by
  rw [mst_and_pow_eq_zero_iff, Nat.testBit_to_div_mod]
  rcases Nat.mod_two_eq_zero_or_one (p / 2 ^ k) with h | h <;> simp [h]

/-- Reducing a position modulo `2 ^ h` does not change bits below `h`. -/
lemma mst_div_pow_mod_two_of_mod (p h k : Nat) (hk : k < h) :
    p % 2 ^ h / 2 ^ k % 2 = p / 2 ^ k % 2 := by
  have ht := Nat.testBit_mod_two_pow p h k
  rw [Nat.testBit_to_div_mod, Nat.testBit_to_div_mod] at ht
  simp only [decide_eq_true hk, Bool.true_and] at ht
  have hiff := decide_eq_decide.mp ht
  have ha := Nat.mod_two_eq_zero_or_one (p % 2 ^ h / 2 ^ k)
  have hb := Nat.mod_two_eq_zero_or_one (p / 2 ^ k)
  omega

/-! ### Unfolding lemmas for the well-formedness predicate -/

/-- Componentwise reading of `Node.wf` at a branch. -/
lemma mst_wf_branch_iff (hash_bytes : Bytes → Bytes) (h s : Nat) (l r : Node)
    (c : Bytes) :
    Node.wf hash_bytes (.branch h s l r c) = true ↔
      Node.wf hash_bytes l = true ∧ Node.wf hash_bytes r = true ∧
      l.height = r.height ∧ h = l.height + 1 ∧
      s = (l.amount + r.amount) % M64 ∧
      c = hash_bytes (branchSerialBuild h s l.digest r.digest) := by
  simp [Node.wf, Bool.and_eq_true, and_assoc]

/-! ### The verification loop -/

/-- Splitting the verification replay across an append: the second part starts
from the state reached by the first, with the height advanced and the key
shifted by the consumed length. -/
lemma mst_verifyLoop_append (hash_bytes : Bytes → Bytes)
    (xs ys : List Commitment) :
    ∀ (c : Commitment) (ht key : Nat),
      verifyLoop hash_bytes c ht key (xs ++ ys)
        = verifyLoop hash_bytes (verifyLoop hash_bytes c ht key xs)
            (ht + xs.length) (key >>> xs.length) ys := by
  induction xs with
  | nil =>
    intro c ht key
    simp [verifyLoop]
  | cons x xs ih =>
    intro c ht key
    have hshift : key >>> (xs.length + 1) = (key >>> 1) >>> xs.length := by
      rw [Nat.add_comm, Nat.shiftRight_add]
    have hht : ht + (xs.length + 1) = (ht + 1) + xs.length := by omega
    rw [List.cons_append]
    by_cases hk : key &&& 1 = 0
    · simp only [verifyLoop, if_pos hk, List.length_cons, hshift, hht, ih]
    · simp only [verifyLoop, if_neg hk, List.length_cons, hshift, hht, ih]

/-! ### Structure of generated proofs -/

/-- For a well-formed tree the descent collects exactly one sibling per
level: the sibling list has the tree's height as its length. -/
lemma mst_proveAux_length (hash_bytes : Bytes → Bytes) :
    ∀ t : Node, Node.wf hash_bytes t = true →
      ∀ p, (t.proveAux p).1.length = t.height := by
  intro t
  induction t with
  | leaf v c =>
    intro _ p
    simp [Node.proveAux, Node.height]
  | branch h s l r c ihl ihr =>
    intro hwf p
    rw [mst_wf_branch_iff] at hwf
    obtain ⟨hl, hr, hlr, hh, hs, hc⟩ := hwf
    by_cases hb0 : p &&& (1 <<< (h - 1)) = 0
    · simp only [Node.proveAux, if_pos hb0, List.length_cons, ihl hl p]
      show l.height + 1 = h
      omega
    · simp only [Node.proveAux, if_neg hb0, List.length_cons, ihr hr p]
      show r.height + 1 = h
      omega

/-- One step of the verification loop with the low key bit clear: the current
commitment is the left operand. -/
lemma mst_verifyLoop_single_left (hash_bytes : Bytes → Bytes)
    (a b : Commitment) (ht key : Nat) (hk : key &&& 1 = 0) :
    verifyLoop hash_bytes a ht key [b] =
      ⟨(a.sum + b.sum) % M64,
       hash_bytes (branchSerialVerify (ht + 1) ((a.sum + b.sum) % M64)
         a.hash b.hash)⟩ := by
  simp only [verifyLoop, if_pos hk]

/-- One step of the verification loop with the low key bit set: the current
commitment is the right operand. -/
lemma mst_verifyLoop_single_right (hash_bytes : Bytes → Bytes)
    (a b : Commitment) (ht key : Nat) (hk : ¬(key &&& 1 = 0)) :
    verifyLoop hash_bytes a ht key [b] =
      ⟨(a.sum + b.sum) % M64,
       hash_bytes (branchSerialVerify (ht + 1) ((a.sum + b.sum) % M64)
         b.hash a.hash)⟩ := by
  simp only [verifyLoop, if_neg hk]

/-- Replaying the collected siblings (leaf-to-root) from the leaf commitment
reconstructs the commitment of any well-formed tree, for every position. -/
lemma mst_verifyLoop_proveAux (hash_bytes : Bytes → Bytes) :
    ∀ t : Node, Node.wf hash_bytes t = true →
      ∀ p, verifyLoop hash_bytes (t.proveAux p).2 0 p (t.proveAux p).1.reverse
        = t.commit := by
  intro t
  induction t with
  | leaf v c =>
    intro _ p
    simp [Node.proveAux, verifyLoop]
  | branch h s l r c ihl ihr =>
    intro hwf p
    rw [mst_wf_branch_iff] at hwf
    obtain ⟨hl, hr, hlr, hh, hs, hc⟩ := hwf
    have hcl : Node.commit l = ⟨l.amount, l.digest⟩ := rfl
    have hcr : Node.commit r = ⟨r.amount, r.digest⟩ := rfl
    have hcb : Node.commit (.branch h s l r c) = ⟨s, c⟩ := rfl
    by_cases hb0 : p &&& (1 <<< (h - 1)) = 0
    · have hlen : (l.proveAux p).1.length = l.height :=
        mst_proveAux_length hash_bytes l hl p
      simp only [Node.proveAux, if_pos hb0, List.reverse_cons]
      rw [mst_verifyLoop_append, List.length_reverse, hlen, ihl hl p]
      have hbit : (p >>> l.height) &&& 1 = 0 := by
        rw [mst_shiftRight_and_one]
        rw [mst_and_pow_eq_zero_iff] at hb0
        have he : h - 1 = l.height := by omega
        rw [he] at hb0
        exact hb0
      rw [mst_verifyLoop_single_left hash_bytes _ _ _ _ hbit, hcl, hcr, hcb]
      have h6 : 0 + l.height + 1 = h := by omega
      show (⟨(l.amount + r.amount) % M64,
        hash_bytes (branchSerialVerify (0 + l.height + 1)
          ((l.amount + r.amount) % M64) l.digest r.digest)⟩ : Commitment)
        = ⟨s, c⟩
      rw [h6, ← hs, hc]
      rfl
    · have hlen : (r.proveAux p).1.length = r.height :=
        mst_proveAux_length hash_bytes r hr p
      simp only [Node.proveAux, if_neg hb0, List.reverse_cons]
      rw [mst_verifyLoop_append, List.length_reverse, hlen, ihr hr p]
      have hbit : ¬((p >>> r.height) &&& 1 = 0) := by
        rw [mst_shiftRight_and_one]
        rw [mst_and_pow_eq_zero_iff] at hb0
        have he : h - 1 = r.height := by omega
        rw [he] at hb0
        exact hb0
      rw [mst_verifyLoop_single_right hash_bytes _ _ _ _ hbit, hcl, hcr, hcb]
      have h6 : 0 + r.height + 1 = h := by omega
      show (⟨(r.amount + l.amount) % M64,
        hash_bytes (branchSerialVerify (0 + r.height + 1)
          ((r.amount + l.amount) % M64) l.digest r.digest)⟩ : Commitment)
        = ⟨s, c⟩
      have hsum : (r.amount + l.amount) % M64 = s := by
        rw [hs, Nat.add_comm]
      rw [h6, hsum, hc]
      rfl

/-! ### The build stack invariant -/

/-- `new_branch` of two well-formed equal-height children is well formed and
sits one level higher. -/
lemma mst_new_branch_wf (hash_bytes : Bytes → Bytes) (l r : Node)
    (hl : Node.wf hash_bytes l = true) (hr : Node.wf hash_bytes r = true)
    (hh : l.height = r.height) :
    Node.wf hash_bytes (Node.new_branch hash_bytes l r) = true ∧
      (Node.new_branch hash_bytes l r).height = l.height + 1 := by
  constructor
  · rw [Node.new_branch, mst_wf_branch_iff]
    exact ⟨hl, hr, hh, rfl, rfl, rfl⟩
  · rfl

/-- `insertNode` preserves the stack invariant. -/
lemma mst_insertNode_stackWF (hash_bytes : Bytes → Bytes) :
    ∀ (st : List (Nat × Node)) (node : Node) (height : Nat),
      stackWF hash_bytes st → Node.wf hash_bytes node = true →
      node.height = height →
      stackWF hash_bytes (insertNode hash_bytes st node height) := by
  intro st
  induction st with
  | nil =>
    intro node height _ hn hh pr hpr
    simp only [insertNode, List.mem_singleton] at hpr
    subst hpr
    exact ⟨hn, hh⟩
  | cons hd rest ih =>
    obtain ⟨h0, sib⟩ := hd
    intro node height hst hn hh
    have hsib := hst (h0, sib) (List.mem_cons_self _ _)
    have hsib1 : Node.wf hash_bytes sib = true := hsib.1
    have hsib2 : sib.height = h0 := hsib.2
    by_cases he : h0 = height
    · rw [insertNode, if_pos he]
      have hbr := mst_new_branch_wf hash_bytes sib node hsib1 hn
        (by omega)
      apply ih
      · intro pr hpr
        exact hst pr (List.mem_cons_of_mem _ hpr)
      · exact hbr.1
      · rw [hbr.2]
        omega
    · rw [insertNode, if_neg he]
      intro pr hpr
      rcases List.mem_cons.mp hpr with h1 | h2
      · subst h1
        exact ⟨hn, hh⟩
      · exact hst pr h2

/-- The fold of `Node::new` preserves the stack invariant. -/
lemma mst_foldl_stackWF (hash_bytes : Bytes → Bytes) (v : List Nat) :
    ∀ st, stackWF hash_bytes st →
      stackWF hash_bytes
        (v.foldl (fun st x => insertNode hash_bytes st
          (Node.new_leaf hash_bytes x) 0) st) := by
  induction v with
  | nil =>
    intro st h
    exact h
  | cons x xs ih =>
    intro st h
    rw [List.foldl_cons]
    apply ih
    apply mst_insertNode_stackWF hash_bytes st _ 0 h
    · simp [Node.new_leaf, Node.wf]
    · rfl

/-- Characterisation of a successful `Node.new`: the fold left the stack with
exactly one entry, holding the returned root. -/
lemma mst_new_eq_some_iff (hash_bytes : Bytes → Bytes) (v : List Nat)
    (t : Node) :
    Node.new hash_bytes v = some t ↔
      ∃ k, v.foldl (fun st x => insertNode hash_bytes st
        (Node.new_leaf hash_bytes x) 0) [] = [(k, t)] := by
  unfold Node.new
  rcases hfold : v.foldl (fun st x => insertNode hash_bytes st
      (Node.new_leaf hash_bytes x) 0) [] with _ | ⟨⟨k, n⟩, _ | ⟨hd, rest⟩⟩
  · simp
  · simp
  · simp

/-- Every tree returned by `Node.new` is well formed. -/
lemma mst_build_wf (hash_bytes : Bytes → Bytes) (v : List Nat) (t : Node)
    (hbuild : Node.new hash_bytes v = some t) :
    Node.wf hash_bytes t = true := by
  have hst := mst_foldl_stackWF hash_bytes v []
    (by intro pr hpr; simp at hpr)
  obtain ⟨k, heq⟩ := (mst_new_eq_some_iff hash_bytes v t).mp hbuild
  rw [heq] at hst
  exact (hst (k, t) (List.mem_singleton.mpr rfl)).1

/-! ### Leaf values, counts and sums -/

/-- `insertNode` appends the inserted node's leaf values to the stack's. -/
lemma mst_insertNode_stackVals (hash_bytes : Bytes → Bytes) :
    ∀ (st : List (Nat × Node)) (node : Node) (height : Nat),
      stackVals (insertNode hash_bytes st node height)
        = stackVals st ++ node.leafVals := by
  intro st
  induction st with
  | nil =>
    intro node height
    simp [insertNode, stackVals]
  | cons hd rest ih =>
    obtain ⟨h0, sib⟩ := hd
    intro node height
    by_cases he : h0 = height
    · rw [insertNode, if_pos he, ih]
      show stackVals rest ++ (Node.new_branch hash_bytes sib node).leafVals
        = (stackVals rest ++ sib.leafVals) ++ node.leafVals
      have : (Node.new_branch hash_bytes sib node).leafVals
          = sib.leafVals ++ node.leafVals := rfl
      rw [this, List.append_assoc]
    · rw [insertNode, if_neg he]
      show (stackVals rest ++ sib.leafVals) ++ node.leafVals
        = (stackVals rest ++ sib.leafVals) ++ node.leafVals
      rfl

/-- The fold of `Node::new` appends the processed values to the stack's. -/
lemma mst_foldl_stackVals (hash_bytes : Bytes → Bytes) :
    ∀ (v : List Nat) (st : List (Nat × Node)),
      stackVals (v.foldl (fun st x => insertNode hash_bytes st
        (Node.new_leaf hash_bytes x) 0) st) = stackVals st ++ v := by
  intro v
  induction v with
  | nil =>
    intro st
    simp
  | cons x xs ih =>
    intro st
    rw [List.foldl_cons, ih, mst_insertNode_stackVals]
    have : (Node.new_leaf hash_bytes x).leafVals = [x] := rfl
    rw [this, List.append_assoc, List.singleton_append]

/-- The leaf values of a built tree are exactly the input values, in order. -/
lemma mst_build_leafVals (hash_bytes : Bytes → Bytes) (v : List Nat) (t : Node)
    (hbuild : Node.new hash_bytes v = some t) :
    t.leafVals = v := by
  obtain ⟨k, heq⟩ := (mst_new_eq_some_iff hash_bytes v t).mp hbuild
  have h1 := mst_foldl_stackVals hash_bytes v []
  rw [heq] at h1
  have h2 : stackVals [(k, t)] = t.leafVals := by simp [stackVals]
  have h3 : stackVals ([] : List (Nat × Node)) ++ v = v := by simp [stackVals]
  rw [h2, h3] at h1
  exact h1

/-- A well-formed tree of height `h` has exactly `2 ^ h` leaves. -/
lemma mst_wf_leafVals_length (hash_bytes : Bytes → Bytes) :
    ∀ t : Node, Node.wf hash_bytes t = true →
      t.leafVals.length = 2 ^ t.height := by
  intro t
  induction t with
  | leaf v c =>
    intro _
    simp [Node.leafVals, Node.height]
  | branch h s l r c ihl ihr =>
    intro hwf
    rw [mst_wf_branch_iff] at hwf
    obtain ⟨hl, hr, hlr, hh, _, _⟩ := hwf
    show (l.leafVals ++ r.leafVals).length = 2 ^ h
    rw [List.length_append, ihl hl, ihr hr, hh, ← hlr, pow_succ]
    omega

/-- In a well-formed tree every leaf sits at depth equal to the root height. -/
lemma mst_wf_allLeavesAt (hash_bytes : Bytes → Bytes) :
    ∀ t : Node, Node.wf hash_bytes t = true →
      t.allLeavesAt t.height = true := by
  intro t
  induction t with
  | leaf v c =>
    intro _
    simp [Node.allLeavesAt, Node.height]
  | branch h s l r c ihl ihr =>
    intro hwf
    rw [mst_wf_branch_iff] at hwf
    obtain ⟨hl, hr, hlr, hh, _, _⟩ := hwf
    show Node.allLeavesAt (.branch h s l r c) h = true
    have hh' : h = l.height + 1 := hh
    rw [hh']
    show (l.allLeavesAt l.height && r.allLeavesAt l.height) = true
    have e1 : l.allLeavesAt l.height = true := ihl hl
    have e2 : r.allLeavesAt l.height = true := by
      rw [hlr]
      exact ihr hr
    rw [e1, e2]
    rfl

/-- The sum stored at any well-formed node is the wrapping `u64` sum of the
leaf values beneath it (values are `u64`, hence below `2 ^ 64`). -/
lemma mst_wf_sum (hash_bytes : Bytes → Bytes) :
    ∀ t : Node, Node.wf hash_bytes t = true →
      (∀ x ∈ t.leafVals, x < M64) →
      t.amount = t.leafVals.sum % M64 := by
  intro t
  induction t with
  | leaf v c =>
    intro _ hv
    have hvlt : v < M64 := hv v (by simp [Node.leafVals])
    show v = List.sum [v] % M64
    simp [Nat.mod_eq_of_lt hvlt]
  | branch h s l r c ihl ihr =>
    intro hwf hv
    rw [mst_wf_branch_iff] at hwf
    obtain ⟨hl, hr, _, _, hs, _⟩ := hwf
    have hvl : ∀ x ∈ l.leafVals, x < M64 := by
      intro x hx
      exact hv x (by simp [Node.leafVals, hx])
    have hvr : ∀ x ∈ r.leafVals, x < M64 := by
      intro x hx
      exact hv x (by simp [Node.leafVals, hx])
    show s = (l.leafVals ++ r.leafVals).sum % M64
    rw [hs, ihl hl hvl, ihr hr hvr, List.sum_append]
    exact (Nat.add_mod _ _ _).symm

/-! ### The descent depends only on the low bits of the position -/

/-- The descent of `prove` reads only bits `height - 1, …, 0` of the position:
reducing the position modulo `2 ^ height` yields the same collected siblings
and leaf commitment. -/
lemma mst_proveAux_mod (hash_bytes : Bytes → Bytes) :
    ∀ t : Node, Node.wf hash_bytes t = true →
      ∀ p, t.proveAux p = t.proveAux (p % 2 ^ t.height) := by
  intro t
  induction t with
  | leaf v c =>
    intro _ p
    simp [Node.proveAux]
  | branch h s l r c ihl ihr =>
    intro hwf p
    rw [mst_wf_branch_iff] at hwf
    obtain ⟨hl, hr, hlr, hh, _, _⟩ := hwf
    have hpos : 0 < h := by omega
    have hbit : (p % 2 ^ h) &&& (1 <<< (h - 1)) = 0
        ↔ p &&& (1 <<< (h - 1)) = 0 := by
      rw [mst_and_pow_eq_zero_iff, mst_and_pow_eq_zero_iff,
        mst_div_pow_mod_two_of_mod p h (h - 1) (by omega)]
    have hht : Node.height (.branch h s l r c) = h := rfl
    rw [hht]
    by_cases hb0 : p &&& (1 <<< (h - 1)) = 0
    · have hb0' : (p % 2 ^ h) &&& (1 <<< (h - 1)) = 0 := hbit.mpr hb0
      simp only [Node.proveAux, if_pos hb0, if_pos hb0']
      have e1 : l.proveAux p = l.proveAux (p % 2 ^ l.height) := ihl hl p
      have e2 : l.proveAux (p % 2 ^ h)
          = l.proveAux (p % 2 ^ h % 2 ^ l.height) := ihl hl _
      have e3 : p % 2 ^ h % 2 ^ l.height = p % 2 ^ l.height :=
        Nat.mod_mod_of_dvd p (pow_dvd_pow 2 (by omega))
      rw [e1, e2, e3]
    · have hb0' : ¬((p % 2 ^ h) &&& (1 <<< (h - 1)) = 0) := fun hcon =>
        hb0 (hbit.mp hcon)
      simp only [Node.proveAux, if_neg hb0, if_neg hb0']
      have e1 : r.proveAux p = r.proveAux (p % 2 ^ r.height) := ihr hr p
      have e2 : r.proveAux (p % 2 ^ h)
          = r.proveAux (p % 2 ^ h % 2 ^ r.height) := ihr hr _
      have e3 : p % 2 ^ h % 2 ^ r.height = p % 2 ^ r.height :=
        Nat.mod_mod_of_dvd p (pow_dvd_pow 2 (by omega))
      rw [e1, e2, e3]

/-- The leaf commitment returned by the descent is the commitment of the leaf
whose value sits at the target position in the left-to-right leaf order. -/
lemma mst_proveAux_leaf_value (hash_bytes : Bytes → Bytes) :
    ∀ t : Node, Node.wf hash_bytes t = true →
      ∀ p, p < 2 ^ t.height →
        (t.proveAux p).2 = ⟨t.leafVals.getD p 0,
          hash_bytes (leafSerial (t.leafVals.getD p 0))⟩ := by
  intro t
  induction t with
  | leaf v c =>
    intro hwf p hp
    have hp0 : p = 0 := by
      have : p < 1 := by simpa [Node.height] using hp
      omega
    subst hp0
    have hc : c = hash_bytes (leafSerial v) := by
      simpa [Node.wf] using hwf
    simp [Node.proveAux, Node.commit, Node.amount, Node.digest, Node.leafVals,
      hc]
  | branch h s l r c ihl ihr =>
    intro hwf p hp
    rw [mst_wf_branch_iff] at hwf
    obtain ⟨hl, hr, hlr, hh, _, _⟩ := hwf
    have hpow : (2 : Nat) ^ h = 2 ^ (h - 1) * 2 := by
      rw [← pow_succ]
      congr 1
      omega
    have hlenl : l.leafVals.length = 2 ^ l.height :=
      mst_wf_leafVals_length hash_bytes l hl
    have hlh : l.height = h - 1 := by omega
    have hrh : r.height = h - 1 := by omega
    have hlow : p < 2 ^ h := hp
    by_cases hb0 : p &&& (1 <<< (h - 1)) = 0
    · have hdm : p / 2 ^ (h - 1) % 2 = 0 :=
        (mst_and_pow_eq_zero_iff p (h - 1)).mp hb0
      have hdiv : p / 2 ^ (h - 1) < 2 := by
        rw [Nat.div_lt_iff_lt_mul (Nat.two_pow_pos (h - 1))]
        omega
      have hzero : p / 2 ^ (h - 1) = 0 := by
        generalize p / 2 ^ (h - 1) = q at hdm hdiv
        omega
      have hplow : p < 2 ^ (h - 1) := by
        rcases Nat.lt_or_ge p (2 ^ (h - 1)) with hgood | hbad
        · exact hgood
        · have := Nat.one_le_div_iff (Nat.two_pow_pos (h - 1)) |>.mpr hbad
          omega
      simp only [Node.proveAux, if_pos hb0]
      have hlv : Node.leafVals (.branch h s l r c)
          = l.leafVals ++ r.leafVals := rfl
      rw [hlv, List.getD_append _ _ _ _ (by rw [hlenl, hlh]; exact hplow),
        ihl hl p (by rw [hlh]; exact hplow)]
    · have hdm1 : ¬(p / 2 ^ (h - 1) % 2 = 0) := fun hcon =>
        hb0 ((mst_and_pow_eq_zero_iff p (h - 1)).mpr hcon)
      have hx := Nat.mod_two_eq_zero_or_one (p / 2 ^ (h - 1))
      have hdm : p / 2 ^ (h - 1) % 2 = 1 := by
        rcases hx with h0 | h1
        · exact absurd h0 hdm1
        · exact h1
      have hge : 2 ^ (h - 1) ≤ p := by
        rcases Nat.lt_or_ge p (2 ^ (h - 1)) with hbad | hgood
        · rw [Nat.div_eq_of_lt hbad] at hdm
          simp at hdm
        · exact hgood
      have hsub : p - 2 ^ (h - 1) < 2 ^ (h - 1) := by omega
      have hmod : p % 2 ^ (h - 1) = p - 2 ^ (h - 1) := by
        rw [Nat.mod_eq_sub_mod hge, Nat.mod_eq_of_lt hsub]
      simp only [Node.proveAux, if_neg hb0]
      rw [mst_proveAux_mod hash_bytes r hr p]
      rw [ihr hr (p % 2 ^ r.height)
        (Nat.mod_lt _ (Nat.two_pow_pos _))]
      have hlv : Node.leafVals (.branch h s l r c)
          = l.leafVals ++ r.leafVals := rfl
      rw [hlv, List.getD_append_right _ _ _ _ (by rw [hlenl, hlh]; exact hge)]
      have hidx : p % 2 ^ r.height = p - l.leafVals.length := by
        rw [hrh, hmod, hlenl, hlh]
      rw [hidx]

/-! ### Leaf counting in the build stack -/

/-- Each `insertNode` accounts for `2 ^ height` additional leaves: merging two
stands of `2 ^ h` leaves yields one stand of `2 ^ (h + 1)`. -/
lemma mst_insertNode_sumPow (hash_bytes : Bytes → Bytes) :
    ∀ (st : List (Nat × Node)) (node : Node) (height : Nat),
      sumPow (insertNode hash_bytes st node height)
        = 2 ^ height + sumPow st := by
  intro st
  induction st with
  | nil =>
    intro node height
    simp [insertNode, sumPow]
  | cons hd rest ih =>
    obtain ⟨h0, sib⟩ := hd
    intro node height
    by_cases he : h0 = height
    · rw [insertNode, if_pos he, ih, he]
      have hmap : sumPow ((height, sib) :: rest) = 2 ^ height + sumPow rest := by
        simp [sumPow]
      rw [hmap, pow_succ]
      omega
    · rw [insertNode, if_neg he]
      simp [sumPow]

/-- After folding the input values into an empty stack, the stack accounts for
exactly one leaf per input value. -/
lemma mst_foldl_sumPow (hash_bytes : Bytes → Bytes) :
    ∀ (v : List Nat) (st : List (Nat × Node)),
      sumPow (v.foldl (fun st x => insertNode hash_bytes st
        (Node.new_leaf hash_bytes x) 0) st) = sumPow st + v.length := by
  intro v
  induction v with
  | nil =>
    intro st
    simp
  | cons x xs ih =>
    intro st
    rw [List.foldl_cons, ih, mst_insertNode_sumPow]
    simp only [pow_zero, List.length_cons]
    omega

/-- Processing a block of `2 ^ k` values on a stack whose recorded heights are
all at least `k` is the same as inserting a single height-`k` subtree. -/
lemma mst_run_perfect (hash_bytes : Bytes → Bytes) :
    ∀ (k : Nat) (v : List Nat) (st : List (Nat × Node)),
      v.length = 2 ^ k → (∀ pr ∈ st, k ≤ pr.1) →
      ∃ T : Node, v.foldl (fun st x => insertNode hash_bytes st
        (Node.new_leaf hash_bytes x) 0) st = insertNode hash_bytes st T k := by
  intro k
  induction k with
  | zero =>
    intro v st hv _
    obtain ⟨x, rfl⟩ := List.length_eq_one.mp (by simpa using hv)
    exact ⟨Node.new_leaf hash_bytes x, by simp⟩
  | succ k ih =>
    intro v st hv hst
    have hpow : (2 : Nat) ^ (k + 1) = 2 ^ k * 2 := pow_succ 2 k
    have hl1 : (v.take (2 ^ k)).length = 2 ^ k := by
      rw [List.length_take, hv]
      have h1 : (2 : Nat) ^ k ≤ 2 ^ (k + 1) := by omega
      omega
    have hl2 : (v.drop (2 ^ k)).length = 2 ^ k := by
      rw [List.length_drop, hv]
      omega
    obtain ⟨T1, h1⟩ := ih (v.take (2 ^ k)) st hl1
      (fun pr hpr => le_trans (Nat.le_succ k) (hst pr hpr))
    have hins1 : insertNode hash_bytes st T1 k = (k, T1) :: st := by
      cases st with
      | nil => rfl
      | cons hd rest =>
        obtain ⟨h0, sib⟩ := hd
        have hk1 := hst (h0, sib) (List.mem_cons_self _ _)
        rw [insertNode, if_neg (by omega)]
    have hside : ∀ pr ∈ (k, T1) :: st, k ≤ pr.1 := by
      intro pr hpr
      rcases List.mem_cons.mp hpr with hhd | htl
      · subst hhd
        exact le_refl k
      · exact le_trans (Nat.le_succ k) (hst pr htl)
    obtain ⟨T2, h2⟩ := ih (v.drop (2 ^ k)) ((k, T1) :: st) hl2 hside
    refine ⟨Node.new_branch hash_bytes T1 T2, ?_⟩
    calc v.foldl (fun st x => insertNode hash_bytes st
          (Node.new_leaf hash_bytes x) 0) st
        = ((v.take (2 ^ k)) ++ (v.drop (2 ^ k))).foldl
            (fun st x => insertNode hash_bytes st
              (Node.new_leaf hash_bytes x) 0) st := by
          rw [List.take_append_drop]
      _ = (v.drop (2 ^ k)).foldl (fun st x => insertNode hash_bytes st
            (Node.new_leaf hash_bytes x) 0) ((k, T1) :: st) := by
          rw [List.foldl_append, h1, hins1]
      _ = insertNode hash_bytes ((k, T1) :: st) T2 k := h2
      _ = insertNode hash_bytes st (Node.new_branch hash_bytes T1 T2)
            (k + 1) := by
          rw [insertNode, if_pos rfl]

/-! ### The verification result depends only on the low key bits -/

/-- The verification replay reads exactly one key bit per sibling: reducing
the key modulo `2 ^ length` leaves the result unchanged. -/
lemma mst_verifyLoop_key_mod (hash_bytes : Bytes → Bytes) :
    ∀ (sibs : List Commitment) (c : Commitment) (ht key : Nat),
      verifyLoop hash_bytes c ht key sibs
        = verifyLoop hash_bytes c ht (key % 2 ^ sibs.length) sibs := by
  intro sibs
  induction sibs with
  | nil =>
    intro c ht key
    rfl
  | cons s rest ih =>
    intro c ht key
    have hand : (key % 2 ^ (rest.length + 1)) &&& 1 = key &&& 1 := by
      rw [Nat.and_one_is_mod, Nat.and_one_is_mod]
      exact Nat.mod_mod_of_dvd key (dvd_pow_self 2 (Nat.succ_ne_zero _))
    have hshift : (key % 2 ^ (rest.length + 1)) >>> 1
        = (key >>> 1) % 2 ^ rest.length := by
      rw [Nat.shiftRight_one, Nat.shiftRight_one]
      have h2 : (2 : Nat) ^ (rest.length + 1) = 2 * 2 ^ rest.length := by
        rw [pow_succ]
        ring
      rw [h2, Nat.mod_mul_right_div_self]
    rw [List.length_cons]
    by_cases hk : key &&& 1 = 0
    · have hk' : (key % 2 ^ (rest.length + 1)) &&& 1 = 0 := by
        rw [hand]
        exact hk
      simp only [verifyLoop, if_pos hk, if_pos hk', hshift]
      exact ih _ _ _
    · have hk' : ¬((key % 2 ^ (rest.length + 1)) &&& 1 = 0) := by
        rw [hand]
        exact hk
      simp only [verifyLoop, if_neg hk, if_neg hk', hshift]
      exact ih _ _ _

/-! ### The specified properties -/

/-- C1: for every value sequence accepted by `build` and every in-range
position `i`, the proof generated for `i` verifies against the commitment of
the same tree: `verify(prove(build(v), i), commit(build(v))) = true`. -/
theorem inclusion_correctness (hash_bytes : Bytes → Bytes) (v : List Nat)
    (t : Node) (hbuild : Node.new hash_bytes v = some t) (i : Nat)
    (hi : i < v.length) :
    Proof.verify hash_bytes (t.prove i) t.commit = true := by
  have hwf := mst_build_wf hash_bytes v t hbuild
  simp only [Proof.verify, Node.prove, decide_eq_true_eq]
  exact mst_verifyLoop_proveAux hash_bytes t hwf i

/-- C1 witness: concrete 8-leaf scenario at position 3. -/
theorem inclusion_correctness_witness :
    Proof.verify hfEx (Node.prove exTree 3) (Node.commit exTree) = true :=
  inclusion_correctness hfEx exValues exTree (by decide) 3 (by decide)

/-- C2 counterexample: `[2^63, 2^63]` is accepted by `build`, but the root
sum wraps to `0` under `u64` addition instead of the exact sum `2^64`. -/
theorem root_sum_wraps_at_overflow :
    (Node.new hfEx [2 ^ 63, 2 ^ 63]).isSome = true ∧
    ((Node.new hfEx [2 ^ 63, 2 ^ 63]).getD (Node.leaf 0 [])).commit.sum = 0 ∧
    ([2 ^ 63, 2 ^ 63] : List Nat).sum = 2 ^ 64 := by
  refine ⟨by decide, by decide, by norm_num⟩

/-- C2 (amended): for `u64` inputs the root sum is the exact sum of the
values reduced modulo `2 ^ 64` (wrapping); it equals the exact sum whenever
that sum fits in `u64`, in particular `36` for `[1,…,8]`. -/
theorem sum_accuracy_mod_two_pow (hash_bytes : Bytes → Bytes) (v : List Nat)
    (t : Node) (hbuild : Node.new hash_bytes v = some t)
    (hv : ∀ x ∈ v, x < 2 ^ 64) :
    t.commit.sum = v.sum % 2 ^ 64 := by
  have hwf := mst_build_wf hash_bytes v t hbuild
  have hlv := mst_build_leafVals hash_bytes v t hbuild
  have hs := mst_wf_sum hash_bytes t hwf
    (by rw [hlv]; intro x hx; exact hv x hx)
  show t.amount = v.sum % 2 ^ 64
  rw [hs, hlv]
  rfl

/-- C2 witness: the concrete scenario root sum is `36`. -/
theorem sum_accuracy_mod_two_pow_witness :
    (Node.commit exTree).sum = 36 :=
  (sum_accuracy_mod_two_pow hfEx exValues exTree (by decide)
    (by decide)).trans (by decide)

/-- C3 counterexample: `prove` at out-of-range position 8 of the 8-leaf tree
does not fail: it returns the position-0 proof with index 8 — three siblings,
and it even verifies against the root commitment. -/
theorem prove_out_of_range_succeeds :
    Node.prove exTree 8
      = ⟨(Node.prove exTree 0).node, (Node.prove exTree 0).siblings, 8⟩ ∧
    (Node.prove exTree 8).siblings.length = 3 ∧
    Proof.verify hfEx (Node.prove exTree 8) (Node.commit exTree) = true := by
  refine ⟨by decide, by decide, by decide⟩

/-- C3 (amended): `prove` never fails: for every position, in range or not,
it returns a proof; the descent reads only `position mod 2 ^ height` (the
requested position is still recorded verbatim in `index`), so in-range
positions get their own proof and out-of-range positions get the proof of
their low bits. -/
theorem prove_total_index_mod (hash_bytes : Bytes → Bytes) (v : List Nat)
    (t : Node) (hbuild : Node.new hash_bytes v = some t) (position : Nat) :
    Node.prove t position
      = ⟨(Node.prove t (position % 2 ^ t.height)).node,
         (Node.prove t (position % 2 ^ t.height)).siblings, position⟩ := by
  have hwf := mst_build_wf hash_bytes v t hbuild
  have hmod := mst_proveAux_mod hash_bytes t hwf position
  simp only [Node.prove, hmod]

/-- C3 witness: concrete instance at position 11. -/
theorem prove_total_index_mod_witness :
    Node.prove exTree 11
      = ⟨(Node.prove exTree (11 % 2 ^ exTree.height)).node,
         (Node.prove exTree (11 % 2 ^ exTree.height)).siblings, 11⟩ :=
  prove_total_index_mod hfEx exValues exTree (by decide) 11

/-- C4: `build` succeeds exactly on power-of-two lengths (the failed
final-stack assertion is the `InvalidLeafCount` rejection); singletons are
accepted and produce the single leaf, of height 0. -/
theorem build_leaf_count_power_of_two (hash_bytes : Bytes → Bytes)
    (v : List Nat) :
    ((Node.new hash_bytes v).isSome = true ↔ ∃ k, v.length = 2 ^ k) ∧
    (∀ x : Nat, Node.new hash_bytes [x] = some (Node.new_leaf hash_bytes x) ∧
      (Node.new_leaf hash_bytes x).height = 0) := by
  constructor
  · constructor
    · intro hsome
      obtain ⟨t, ht⟩ := Option.isSome_iff_exists.mp hsome
      obtain ⟨k, heq⟩ := (mst_new_eq_some_iff hash_bytes v t).mp ht
      refine ⟨k, ?_⟩
      have h1 := mst_foldl_sumPow hash_bytes v []
      rw [heq] at h1
      have h2 : sumPow [(k, t)] = 2 ^ k + 0 := by simp [sumPow]
      have h3 : sumPow ([] : List (Nat × Node)) = 0 := by simp [sumPow]
      rw [h2, h3] at h1
      omega
    · rintro ⟨k, hk⟩
      obtain ⟨T, hT⟩ := mst_run_perfect hash_bytes k v []
        hk (by intro pr hpr; simp at hpr)
      have hTsome : Node.new hash_bytes v = some T := by
        rw [mst_new_eq_some_iff hash_bytes v T]
        exact ⟨k, by rw [hT]; rfl⟩
      rw [hTsome]
      rfl
  · intro x
    exact ⟨rfl, rfl⟩

/-- C5: `verify` is total on all inputs — arbitrary index, leaf commitment
and sibling sums (additions wrap modulo `2 ^ 64`) — always returning a
boolean, which is `true` exactly when the replay reconstructs the supplied
root commitment; no error is ever raised. -/
theorem verify_total_boolean (hash_bytes : Bytes → Bytes) (p : Proof)
    (root : Commitment) :
    (Proof.verify hash_bytes p root = true ∨
      Proof.verify hash_bytes p root = false) ∧
    (Proof.verify hash_bytes p root = true ↔
      verifyLoop hash_bytes p.node 0 p.index p.siblings = root) := by
  constructor
  · cases hb : Proof.verify hash_bytes p root
    · exact Or.inr rfl
    · exact Or.inl rfl
  · simp [Proof.verify]

/-- C6: construction and verification hash identical byte layouts, exactly
as specified: the branch input is the big-endian machine-word height, the
8-byte big-endian sum, the left digest, then the right digest; the leaf
input is the 8-byte big-endian value alone, with no tag. -/
theorem hash_input_layouts_agree :
    (∀ (h s : Nat) (ld rd : Bytes),
      branchSerialVerify h s ld rd = branchSerialBuild h s ld rd) ∧
    (∀ (h s : Nat) (ld rd : Bytes),
      branchSerialBuild h s ld rd = toBE8 h ++ toBE8 s ++ ld ++ rd) ∧
    (∀ v : Nat, leafSerial v = toBE8 v) ∧
    (∀ n : Nat, (toBE8 n).length = 8) ∧
    (∀ (h s : Nat) (ld rd : Bytes),
      (branchSerialBuild h s ld rd).length = 16 + ld.length + rd.length) := by
  refine ⟨fun _ _ _ _ => rfl, fun _ _ _ _ => rfl, fun _ => rfl,
    fun _ => rfl, ?_⟩
  intro h s ld rd
  simp only [branchSerialBuild, List.length_append]
  have h1 : (toBE8 h).length = 8 := rfl
  have h2 : (toBE8 s).length = 8 := rfl
  rw [h1, h2]

/-- C7: every tree returned by `build` satisfies the branch invariant —
children of equal height one below the branch, branch sum the wrapping `u64`
sum of the children, stored hash the hash of the serialized branch encoding —
all leaves sit at depth equal to the root height, and the leaf count is
`2 ^ height`, so that common depth is `log2 n`. -/
theorem built_tree_branch_invariant (hash_bytes : Bytes → Bytes)
    (v : List Nat) (t : Node) (hbuild : Node.new hash_bytes v = some t) :
    Node.wf hash_bytes t = true ∧ t.allLeavesAt t.height = true ∧
      v.length = 2 ^ t.height := by
  have hwf := mst_build_wf hash_bytes v t hbuild
  refine ⟨hwf, mst_wf_allLeavesAt hash_bytes t hwf, ?_⟩
  rw [← mst_build_leafVals hash_bytes v t hbuild]
  exact mst_wf_leafVals_length hash_bytes t hwf

/-- C7 witness: the concrete 8-leaf scenario. -/
theorem built_tree_branch_invariant_witness :
    Node.wf hfEx exTree = true ∧ exTree.allLeavesAt exTree.height = true ∧
      exValues.length = 2 ^ exTree.height :=
  built_tree_branch_invariant hfEx exValues exTree (by decide)

/-- C8: for built trees and in-range positions, the generated proof has
exactly `height` siblings, stored leaf-to-root; its `index` records the
position; its leaf commitment is that of the leaf at the target position;
and at a branch of height `h` the descent reads bit `h - 1` of the position
(clear: descend left, append the right child's commitment at the root end of
the sibling list; set: descend right, append the left child's). -/
theorem prove_siblings_structure (hash_bytes : Bytes → Bytes) (v : List Nat)
    (t : Node) (hbuild : Node.new hash_bytes v = some t) (p : Nat)
    (hp : p < v.length) :
    (t.prove p).siblings.length = t.height ∧
    (t.prove p).index = p ∧
    (t.prove p).node = ⟨t.leafVals.getD p 0,
      hash_bytes (leafSerial (t.leafVals.getD p 0))⟩ ∧
    (∀ h s l r c, t = Node.branch h s l r c →
      (p.testBit (h - 1) = false →
        (t.prove p).siblings = (l.prove p).siblings ++ [r.commit] ∧
        (t.prove p).node = (l.prove p).node) ∧
      (p.testBit (h - 1) = true →
        (t.prove p).siblings = (r.prove p).siblings ++ [l.commit] ∧
        (t.prove p).node = (r.prove p).node)) := by
  have hwf := mst_build_wf hash_bytes v t hbuild
  have hlv := mst_build_leafVals hash_bytes v t hbuild
  have hcount := mst_wf_leafVals_length hash_bytes t hwf
  have hp2 : p < 2 ^ t.height := by
    rw [← hcount, hlv]
    exact hp
  refine ⟨?_, rfl, ?_, ?_⟩
  · show (t.proveAux p).1.reverse.length = t.height
    rw [List.length_reverse]
    exact mst_proveAux_length hash_bytes t hwf p
  · exact mst_proveAux_leaf_value hash_bytes t hwf p hp2
  · rintro h s l r c rfl
    constructor
    · intro htb
      have hb0 : p &&& (1 <<< (h - 1)) = 0 :=
        (mst_testBit_false_iff p (h - 1)).mp htb
      constructor
      · show ((Node.branch h s l r c).proveAux p).1.reverse
            = (l.proveAux p).1.reverse ++ [r.commit]
        simp only [Node.proveAux, if_pos hb0, List.reverse_cons]
      · show ((Node.branch h s l r c).proveAux p).2 = (l.proveAux p).2
        simp only [Node.proveAux, if_pos hb0]
    · intro htb
      have hb0 : ¬(p &&& (1 <<< (h - 1)) = 0) := by
        intro hcon
        rw [(mst_testBit_false_iff p (h - 1)).mpr hcon] at htb
        exact Bool.false_ne_true htb
      constructor
      · show ((Node.branch h s l r c).proveAux p).1.reverse
            = (r.proveAux p).1.reverse ++ [l.commit]
        simp only [Node.proveAux, if_neg hb0, List.reverse_cons]
      · show ((Node.branch h s l r c).proveAux p).2 = (r.proveAux p).2
        simp only [Node.proveAux, if_neg hb0]

/-- C8 witness: concrete scenario at position 5. -/
theorem prove_siblings_structure_witness :
    (Node.prove exTree 5).siblings.length = exTree.height ∧
    (Node.prove exTree 5).index = 5 :=
  ⟨(prove_siblings_structure hfEx exValues exTree (by decide) 5
      (by decide)).1,
   (prove_siblings_structure hfEx exValues exTree (by decide) 5
      (by decide)).2.1⟩

/-- C9: building is deterministic and proving/verifying are pure: two builds
of the same sequence yield equal commitments and equal proofs at every
position, and `verify` yields equal results on equal inputs. -/
theorem build_deterministic (hash_bytes : Bytes → Bytes) (v : List Nat)
    (t t' : Node) (h1 : Node.new hash_bytes v = some t)
    (h2 : Node.new hash_bytes v = some t') :
    t.commit = t'.commit ∧ (∀ p, t.prove p = t'.prove p) ∧
    (∀ (q : Proof) (root : Commitment),
      Proof.verify hash_bytes q root = Proof.verify hash_bytes q root) := by
  have ht : t = t' := by
    rw [h1] at h2
    exact Option.some_inj.mp h2
  subst ht
  exact ⟨rfl, fun _ => rfl, fun _ _ => rfl⟩

/-- C9 witness: the concrete scenario build. -/
theorem build_deterministic_witness :
    Node.commit exTree = Node.commit exTree :=
  (build_deterministic hfEx exValues exTree exTree (by decide)
    (by decide)).1

/-- C10: `verify` reads the proof's index only through its lowest
`siblings.length` bits: replacing the index by its remainder modulo
`2 ^ siblings.length`, or shifting it by any multiple of that modulus
(such as 8 versus 0 with three siblings), leaves the verdict unchanged, so a
verified proof does not uniquely bind the claimed position. -/
theorem verify_index_low_bits_only (hash_bytes : Bytes → Bytes)
    (node : Commitment) (sibs : List Commitment) (i m : Nat)
    (root : Commitment) :
    Proof.verify hash_bytes ⟨node, sibs, i⟩ root
      = Proof.verify hash_bytes ⟨node, sibs, i % 2 ^ sibs.length⟩ root ∧
    Proof.verify hash_bytes ⟨node, sibs, i + 2 ^ sibs.length * m⟩ root
      = Proof.verify hash_bytes ⟨node, sibs, i⟩ root := by
  constructor
  · show decide (verifyLoop hash_bytes node 0 i sibs = root)
        = decide (verifyLoop hash_bytes node 0 (i % 2 ^ sibs.length) sibs
            = root)
    rw [mst_verifyLoop_key_mod hash_bytes sibs node 0 i]
  · show decide (verifyLoop hash_bytes node 0 (i + 2 ^ sibs.length * m) sibs
          = root)
        = decide (verifyLoop hash_bytes node 0 i sibs = root)
    rw [mst_verifyLoop_key_mod hash_bytes sibs node 0
        (i + 2 ^ sibs.length * m),
      mst_verifyLoop_key_mod hash_bytes sibs node 0 i,
      Nat.add_mul_mod_self_left]
